import Mathlib

/-!
# Verification of the `bst` binary-search-tree library

Shallow embedding of `src/lib.rs`.  The Rust code represents a (sub)tree as
`Option<Box<Node<K, V>>>` where `Node` holds a key, a value and two optional
children.  We merge the option and the node into a single inductive: `Tree.nil`
is `None` and `Tree.node k v l r` is `Some(Node { k, v, l, r })`.  The public
wrapper `Tree(Option<Box<Node>>)` is the same type.  Rust's `K: Ord` bound
becomes a `LinearOrder` instance, and `Ord::cmp` is modelled by `cmp` below.
Mutation (`&mut self`) is modelled by returning the new tree; `insert` returns
the pair (returned `Option<V>`, updated tree).
-/

namespace Bst

/-- A (sub)tree: Rust's `Option<Box<Node<K, V>>>` with
`Node { k, v, l, r }` (src/lib.rs lines 6 and 54-63). -/
inductive Tree (K : Type u) (V : Type v) : Type (max u v) where
  | nil : Tree K V
  | node (k : K) (v : V) (l : Tree K V) (r : Tree K V) : Tree K V
deriving DecidableEq, Repr

/-- Rust's `Ord::cmp` for a type with a strict total order:
`a.cmp(&b)` is `Less`/`Equal`/`Greater` as `a < b` / `a = b` / `a > b`. -/
def cmp [LinearOrder K] (a b : K) : Ordering :=
  if a < b then .lt else if a = b then .eq else .gt

/-- `Tree::insert` / `Node::insert` (src/lib.rs lines 25-33 and 75-90):
compare the node key with `k` (`self.k.cmp(&k)`); on `Greater` descend left,
on `Equal` replace the value and return the old one, on `Less` descend right;
an empty slot receives a fresh leaf and `None` is returned.  The result is
(returned option, updated tree). -/
def Tree.insert [LinearOrder K] : Tree K V → K → V → Option V × Tree K V
  | .nil, k, v => (none, .node k v .nil .nil)
  | .node k0 v0 l r, k, v =>
    match cmp k0 k with
    | .gt =>
      let p := l.insert k v
      (p.1, .node k0 v0 p.2 r)
    | .eq => (some v0, .node k0 v l r)
    | .lt =>
      let p := r.insert k v
      (p.1, .node k0 v0 l p.2)

/-- `Tree::get` / `Node::get` (src/lib.rs lines 35-37 and 92-102): the same
comparison-driven descent, returning the stored value on `Equal`. -/
def Tree.get [LinearOrder K] : Tree K V → K → Option V
  | .nil, _ => none
  | .node k0 v0 l r, k =>
    match cmp k0 k with
    | .gt => l.get k
    | .eq => some v0
    | .lt => r.get k

/-- `Tree::len` / `Node::len` (src/lib.rs lines 39-41 and 104-108): an empty
slot counts 0, a node counts left-subtree count + 1 + right-subtree count. -/
def Tree.len : Tree K V → Nat
  | .nil => 0
  | .node _ _ l r => l.len + 1 + r.len

/-- `Tree::with` (src/lib.rs lines 19-23): insert a single entry into a new
empty tree. -/
def Tree.withKV [LinearOrder K] (k : K) (v : V) : Tree K V :=
  (Tree.nil.insert k v).2

/-- `rotate_r` (src/lib.rs lines 169-181).  The code takes the root; if its
left child exists that child becomes the new root and the old root (with its
left slot now empty) is written into the new root's right slot — overwriting,
i.e. dropping, whatever right subtree the promoted child had. -/
def rotate_r : Tree K V → Tree K V
  | .nil => .nil
  | .node k v .nil r => .node k v .nil r
  | .node k v (.node lk lv ll _lr) r => .node lk lv ll (.node k v .nil r)

/-- `rotate_l` (src/lib.rs lines 183-195), the mirror of `rotate_r`: the right
child is promoted and the old root is written into its left slot, dropping the
promoted child's former left subtree. -/
def rotate_l : Tree K V → Tree K V
  | .nil => .nil
  | .node k v l .nil => .node k v l .nil
  | .node k v l (.node rk rv _rl rr) => .node rk rv (.node k v l .nil) rr

/-- In-order key/value sequence of a tree (left subtree, node, right
subtree). -/
def Tree.inorder : Tree K V → List (K × V)
  | .nil => []
  | .node k v l r => l.inorder ++ (k, v) :: r.inorder

/-- The keys of a tree, in in-order sequence. -/
def Tree.keys (t : Tree K V) : List K :=
  t.inorder.map Prod.fst

/-- Build a tree by inserting a sequence of key/value pairs, left to right,
into an empty tree. -/
def buildTree [LinearOrder K] (ps : List (K × V)) : Tree K V :=
  ps.foldl (fun t p => (t.insert p.1 p.2).2) .nil

/-- The value supplied by the most recent (left-to-right last) pair of the
list carrying key `k`, if any. -/
def lastVal [DecidableEq K] (ps : List (K × V)) (k : K) : Option V :=
  ps.foldl (fun acc p => if p.1 = k then some p.2 else acc) none

/-- Structural equality of trees, mirroring the derived `PartialEq` on
`Tree`/`Node` (src/lib.rs lines 5 and 53): node-for-node comparison of shape
and key/value pairs. -/
def Tree.structEq [DecidableEq K] [DecidableEq V] : Tree K V → Tree K V → Bool
  | .nil, .nil => true
  | .node k1 v1 l1 r1, .node k2 v2 l2 r2 =>
    decide (k1 = k2) && decide (v1 = v2) && l1.structEq l2 && r1.structEq r2
  | _, _ => false

/-- `TreeIter` (src/lib.rs lines 111-114): the current subtree plus an
explicit stack of ancestor nodes.  A Rust stack entry is a `&Node`; we record
the fields `next` reads after popping it: its key, its value and its right
child. -/
structure TreeIter (K : Type u) (V : Type v) : Type (max u v) where
  curr : Tree K V
  stack : List (K × V × Tree K V)

/-- `TreeIter::new` (src/lib.rs lines 117-122): `curr` starts at the tree's
root option-node and the stack starts empty. -/
def TreeIter.new (t : Tree K V) : TreeIter K V := ⟨t, []⟩

/-- The `while` loop of `TreeIter::next` (src/lib.rs lines 129-132): push the
current node and descend into its left child until the current slot is
empty. -/
def pushLeft : Tree K V → List (K × V × Tree K V) → List (K × V × Tree K V)
  | .nil, st => st
  | .node k v l r, st => pushLeft l ((k, v, r) :: st)

/-- `TreeIter::next` (src/lib.rs lines 128-139): after the left-spine pushes,
pop the stack; if a node comes off, yield it and continue in its right
child. -/
def TreeIter.next (it : TreeIter K V) : Option ((K × V) × TreeIter K V) :=
  match pushLeft it.curr it.stack with
  | [] => none
  | (k, v, r) :: rest => some ((k, v), ⟨r, rest⟩)

/-- Number of nodes still to be yielded from the stack: each entry stands for
its own node plus its right subtree. -/
def stackWeight (st : List (K × V × Tree K V)) : Nat :=
  (st.map (fun e => 1 + e.2.2.len)).sum

/-- Number of nodes the iterator has yet to yield. -/
def TreeIter.measure (it : TreeIter K V) : Nat :=
  it.curr.len + stackWeight it.stack

theorem stackWeight_cons (e : K × V × Tree K V)
    (st : List (K × V × Tree K V)) :
    stackWeight (e :: st) = 1 + e.2.2.len + stackWeight st := by
  simp [stackWeight]

theorem stackWeight_pushLeft (t : Tree K V) (st : List (K × V × Tree K V)) :
    stackWeight (pushLeft t st) = t.len + stackWeight st := by
  induction t generalizing st with
  | nil => simp [pushLeft, Tree.len]
  | node k v l r ihl ihr =>
    rw [pushLeft, ihl, stackWeight_cons, Tree.len]
    dsimp only
    omega

theorem TreeIter.next_measure {it it2 : TreeIter K V} {kv : K × V}
    (h : it.next = some (kv, it2)) : it2.measure < it.measure := by
  unfold TreeIter.next at h
  rcases hp : pushLeft it.curr it.stack with _ | ⟨⟨k, v, r⟩, rest⟩ <;>
    rw [hp] at h
  · exact absurd h (by simp)
  · have hw : it.curr.len + stackWeight it.stack
        = 1 + r.len + stackWeight rest := by
      rw [← stackWeight_pushLeft, hp, stackWeight]
      simp [stackWeight]
    cases h
    simp only [TreeIter.measure]
    omega

/-- Repeatedly call `TreeIter::next` until it returns `None`, collecting the
yielded key/value pairs: the full sequence the iterator produces. -/
def TreeIter.drain (it : TreeIter K V) : List (K × V) :=
  match h : it.next with
  | none => []
  | some (kv, it2) => kv :: it2.drain
termination_by it.measure
decreasing_by exact TreeIter.next_measure (by assumption)

/-- The sequence obtained by iterating a tree from a fresh iterator
(`Tree::iter`, src/lib.rs lines 47-49). -/
def iterTree (t : Tree K V) : List (K × V) :=
  (TreeIter.new t).drain

/-- The predicate `p` holds of every key in the tree. -/
def Tree.all (p : K → Prop) : Tree K V → Prop
  | .nil => True
  | .node k _ l r => p k ∧ l.all p ∧ r.all p

/-- The BST ordering invariant (spec §3): at every node, every key in the left
subtree is less than the node's key and every key in the right subtree is
greater. -/
inductive Tree.BST [LinearOrder K] : Tree K V → Prop
  | nil : Tree.BST .nil
  | node {k : K} {v : V} {l r : Tree K V} :
      l.all (· < k) → r.all (k < ·) → l.BST → r.BST →
      Tree.BST (.node k v l r)

theorem cmp_lt [LinearOrder K] {a b : K} (h : a < b) : cmp a b = .lt := by
  simp [cmp, h]

theorem cmp_eq [LinearOrder K] (a : K) : cmp a a = .eq := by
  simp [cmp]

theorem cmp_gt [LinearOrder K] {a b : K} (h : b < a) : cmp a b = .gt := by
  have h1 : ¬ a < b := not_lt_of_gt h
  have h2 : a ≠ b := ne_of_gt h
  simp [cmp, h1, h2]

theorem Tree.insert_fst [LinearOrder K] (t : Tree K V) (k : K) (v : V) :
    (t.insert k v).1 = t.get k := by
  induction t with
  | nil => simp [Tree.insert, Tree.get]
  | node k0 v0 l r ihl ihr =>
    rcases lt_trichotomy k0 k with h | h | h
    · simp [Tree.insert, Tree.get, cmp_lt h, ihr]
    · subst h
      simp [Tree.insert, Tree.get, cmp_eq]
    · simp [Tree.insert, Tree.get, cmp_gt h, ihl]

theorem Tree.get_insert_self [LinearOrder K] (t : Tree K V) (k : K) (v : V) :
    (t.insert k v).2.get k = some v := by
  induction t with
  | nil => simp [Tree.insert, Tree.get, cmp_eq]
  | node k0 v0 l r ihl ihr =>
    rcases lt_trichotomy k0 k with h | h | h
    · simp [Tree.insert, Tree.get, cmp_lt h, ihr]
    · subst h
      simp [Tree.insert, Tree.get, cmp_eq]
    · simp [Tree.insert, Tree.get, cmp_gt h, ihl]

theorem Tree.get_insert_ne [LinearOrder K] (t : Tree K V) {k k' : K}
    (v' : V) (h : k ≠ k') : (t.insert k' v').2.get k = t.get k := by
  induction t with
  | nil =>
    rcases lt_trichotomy k' k with h1 | h1 | h1
    · simp [Tree.insert, Tree.get, cmp_lt h1]
    · exact absurd h1.symm h
    · simp [Tree.insert, Tree.get, cmp_gt h1]
  | node k0 v0 l r ihl ihr =>
    rcases lt_trichotomy k0 k' with h1 | h1 | h1
    · rcases lt_trichotomy k0 k with h2 | h2 | h2
      · simp [Tree.insert, Tree.get, cmp_lt h1, cmp_lt h2, ihr]
      · subst h2
        simp [Tree.insert, Tree.get, cmp_lt h1, cmp_eq]
      · simp [Tree.insert, Tree.get, cmp_lt h1, cmp_gt h2]
    · subst h1
      rcases lt_trichotomy k0 k with h2 | h2 | h2
      · simp [Tree.insert, Tree.get, cmp_eq, cmp_lt h2]
      · exact absurd h2.symm h
      · simp [Tree.insert, Tree.get, cmp_eq, cmp_gt h2]
    · rcases lt_trichotomy k0 k with h2 | h2 | h2
      · simp [Tree.insert, Tree.get, cmp_gt h1, cmp_lt h2]
      · subst h2
        simp [Tree.insert, Tree.get, cmp_gt h1, cmp_eq]
      · simp [Tree.insert, Tree.get, cmp_gt h1, cmp_gt h2, ihl]

theorem Tree.len_insert [LinearOrder K] (t : Tree K V) (k : K) (v : V) :
    (t.insert k v).2.len = t.len + (if (t.get k).isSome then 0 else 1) := by
  induction t with
  | nil => simp [Tree.insert, Tree.get, Tree.len]
  | node k0 v0 l r ihl ihr =>
    rcases lt_trichotomy k0 k with h | h | h
    · simp only [Tree.insert, Tree.get, cmp_lt h, Tree.len, ihr]
      split <;> omega
    · subst h
      simp [Tree.insert, Tree.get, cmp_eq, Tree.len]
    · simp only [Tree.insert, Tree.get, cmp_gt h, Tree.len, ihl]
      split <;> omega

theorem TreeIter.drain_node (k : K) (v : V) (l r : Tree K V)
    (st : List (K × V × Tree K V)) :
    TreeIter.drain ⟨.node k v l r, st⟩ = TreeIter.drain ⟨l, (k, v, r) :: st⟩ := by
  rw [TreeIter.drain, TreeIter.drain]
  rfl

theorem TreeIter.drain_nil_nil :
    TreeIter.drain (⟨.nil, []⟩ : TreeIter K V) = [] := by
  rw [TreeIter.drain]
  rfl

theorem TreeIter.drain_nil_cons (k : K) (v : V) (r : Tree K V)
    (st : List (K × V × Tree K V)) :
    TreeIter.drain ⟨.nil, (k, v, r) :: st⟩ = (k, v) :: TreeIter.drain ⟨r, st⟩ := by
  rw [TreeIter.drain]
  rfl

theorem TreeIter.drain_spec (t : Tree K V) (st : List (K × V × Tree K V)) :
    TreeIter.drain ⟨t, st⟩ = t.inorder ++ TreeIter.drain ⟨.nil, st⟩ := by
  induction t generalizing st with
  | nil => simp [Tree.inorder]
  | node k v l r ihl ihr =>
    rw [TreeIter.drain_node, ihl, TreeIter.drain_nil_cons, ihr]
    simp [Tree.inorder]

theorem iterTree_eq_inorder (t : Tree K V) : iterTree t = t.inorder := by
  rw [iterTree, TreeIter.new, TreeIter.drain_spec, TreeIter.drain_nil_nil]
  simp

theorem Tree.inorder_length (t : Tree K V) : t.inorder.length = t.len := by
  induction t with
  | nil => simp [Tree.inorder, Tree.len]
  | node k v l r ihl ihr =>
    simp [Tree.inorder, Tree.len, ihl, ihr]
    omega

theorem Tree.keys_node (k : K) (v : V) (l r : Tree K V) :
    (Tree.node k v l r).keys = l.keys ++ k :: r.keys := by
  simp [Tree.keys, Tree.inorder]

theorem Tree.all_iff (p : K → Prop) (t : Tree K V) :
    t.all p ↔ ∀ x ∈ t.keys, p x := by
  induction t with
  | nil => simp [Tree.all, Tree.keys, Tree.inorder]
  | node k v l r ihl ihr =>
    simp only [Tree.all, Tree.keys_node, ihl, ihr, List.mem_append,
      List.mem_cons]
    constructor
    · rintro ⟨hk, hl, hr⟩ x (hx | rfl | hx)
      · exact hl x hx
      · exact hk
      · exact hr x hx
    · intro h
      exact ⟨h k (by tauto), fun x hx => h x (by tauto),
        fun x hx => h x (by tauto)⟩

theorem Tree.all_imp {p q : K → Prop} (h : ∀ x, p x → q x) {t : Tree K V}
    (hp : t.all p) : t.all q := by
  rw [Tree.all_iff] at hp ⊢
  exact fun x hx => h x (hp x hx)

theorem Tree.all_insert [LinearOrder K] {p : K → Prop} (t : Tree K V)
    (k : K) (v : V) (hk : p k) : t.all p → ((t.insert k v).2).all p := by
  induction t with
  | nil =>
    intro _
    simp [Tree.insert, Tree.all, hk]
  | node k0 v0 l r ihl ihr =>
    rintro ⟨h0, hl, hr⟩
    rcases lt_trichotomy k0 k with h | h | h
    · simp [Tree.insert, cmp_lt h, Tree.all, h0, hl, ihr hr]
    · subst h
      simp [Tree.insert, cmp_eq, Tree.all, h0, hl, hr]
    · simp [Tree.insert, cmp_gt h, Tree.all, h0, hr, ihl hl]

theorem Tree.bst_insert [LinearOrder K] {t : Tree K V} (h : t.BST)
    (k : K) (v : V) : ((t.insert k v).2).BST := by
  induction h with
  | nil => exact .node trivial trivial .nil .nil
  | @node k0 v0 l r hl hr bl br ihl ihr =>
    rcases lt_trichotomy k0 k with h | h | h
    · simp only [Tree.insert, cmp_lt h]
      exact .node hl (Tree.all_insert r k v h hr) bl ihr
    · subst h
      simp only [Tree.insert, cmp_eq]
      exact .node hl hr bl br
    · simp only [Tree.insert, cmp_gt h]
      exact .node (Tree.all_insert l k v h hl) hr ihl br

theorem Tree.bst_sorted [LinearOrder K] (t : Tree K V) (h : t.BST) :
    t.keys.Pairwise (· < ·) := by
  induction t with
  | nil => simp [Tree.keys, Tree.inorder]
  | node k v l r ihl ihr =>
    cases h with
    | node hl hr bl br =>
      rw [Tree.keys_node, List.pairwise_append]
      refine ⟨ihl bl, ?_, ?_⟩
      · rw [List.pairwise_cons]
        exact ⟨(Tree.all_iff _ _).1 hr, ihr br⟩
      · intro a ha b hb
        have hak : a < k := (Tree.all_iff _ _).1 hl a ha
        rcases List.mem_cons.mp hb with rfl | hb2
        · exact hak
        · exact hak.trans ((Tree.all_iff _ _).1 hr b hb2)

theorem Tree.get_isSome_iff [LinearOrder K] (t : Tree K V) (h : t.BST)
    (k : K) : (t.get k).isSome ↔ k ∈ t.keys := by
  induction t with
  | nil => simp [Tree.get, Tree.keys, Tree.inorder]
  | node k0 v0 l r ihl ihr =>
    cases h with
    | node hl hr bl br =>
      rw [Tree.keys_node]
      rcases lt_trichotomy k0 k with hc | hc | hc
      · have h1 : k ∉ l.keys := fun hm =>
          absurd ((Tree.all_iff _ _).1 hl k hm) (not_lt_of_gt hc)
        have h2 : k ≠ k0 := ne_of_gt hc
        simp [Tree.get, cmp_lt hc, ihr br, h1, h2]
      · subst hc
        simp [Tree.get, cmp_eq]
      · have h1 : k ∉ r.keys := fun hm =>
          absurd ((Tree.all_iff _ _).1 hr k hm) (not_lt_of_gt hc)
        have h2 : k ≠ k0 := ne_of_lt hc
        simp [Tree.get, cmp_gt hc, ihl bl, h1, h2]

theorem Tree.bst_rotate_r [LinearOrder K] {t : Tree K V} (h : t.BST) :
    (rotate_r t).BST := by
  match t, h with
  | .nil, _ => exact .nil
  | .node k v .nil r, .node hl hr bl br =>
    exact .node hl hr bl br
  | .node k v (.node lk lv ll lr) r, .node hl hr bl br =>
    obtain ⟨hlk, hll, hlr⟩ := hl
    cases bl with
    | node hbl1 hbl2 bll blr =>
      exact .node hbl1
        ⟨hlk, trivial, Tree.all_imp (fun x hx => hlk.trans hx) hr⟩
        bll (.node trivial hr .nil br)

theorem Tree.bst_rotate_l [LinearOrder K] {t : Tree K V} (h : t.BST) :
    (rotate_l t).BST := by
  match t, h with
  | .nil, _ => exact .nil
  | .node k v l .nil, .node hl hr bl br =>
    exact .node hl hr bl br
  | .node k v l (.node rk rv rl rr), .node hl hr bl br =>
    obtain ⟨hrk, hrl, hrr⟩ := hr
    cases br with
    | node hbr1 hbr2 brl brr =>
      exact .node
        ⟨hrk, Tree.all_imp (fun x hx => hx.trans hrk) hl, trivial⟩
        hbr2 (.node hl trivial bl .nil) brr

theorem Tree.bst_nodup [LinearOrder K] (t : Tree K V) (h : t.BST) :
    t.keys.Nodup := by
  exact (Tree.bst_sorted t h).imp (fun hab => ne_of_lt hab)

theorem buildTree_append [LinearOrder K] (ps : List (K × V)) (p : K × V) :
    buildTree (ps ++ [p]) = ((buildTree ps).insert p.1 p.2).2 := by
  simp [buildTree, List.foldl_append]

theorem lastVal_append [DecidableEq K] (ps : List (K × V)) (p : K × V)
    (k : K) :
    lastVal (ps ++ [p]) k = if p.1 = k then some p.2 else lastVal ps k := by
  simp [lastVal, List.foldl_append]

theorem get_foldl_insert [LinearOrder K] (ps : List (K × V)) (t : Tree K V)
    (k : K) :
    (ps.foldl (fun t p => (t.insert p.1 p.2).2) t).get k
      = ps.foldl (fun acc p => if p.1 = k then some p.2 else acc)
          (t.get k) := by
  induction ps generalizing t with
  | nil => rfl
  | cons p ps ih =>
    simp only [List.foldl_cons]
    rw [ih]
    by_cases hp : p.1 = k
    · subst hp
      rw [Tree.get_insert_self]
      simp
    · rw [Tree.get_insert_ne t p.2 (fun he => hp he.symm)]
      simp [hp]

theorem get_buildTree [LinearOrder K] (ps : List (K × V)) (k : K) :
    (buildTree ps).get k = lastVal ps k := by
  rw [buildTree, lastVal, get_foldl_insert]
  rfl

theorem lastVal_isSome [DecidableEq K] (ps : List (K × V)) (k : K) :
    (lastVal ps k).isSome ↔ k ∈ ps.map Prod.fst := by
  induction ps using List.reverseRecOn with
  | nil => simp [lastVal]
  | append_singleton ps p ih =>
    rw [lastVal_append]
    by_cases hp : p.1 = k
    · simp [hp]
    · have hk : k ≠ p.1 := fun he => hp he.symm
      simp [hp, ih, hk]

theorem len_buildTree [LinearOrder K] (ps : List (K × V)) :
    (buildTree ps).len = (ps.map Prod.fst).toFinset.card := by
  induction ps using List.reverseRecOn with
  | nil => simp [buildTree, Tree.len]
  | append_singleton ps p ih =>
    rw [buildTree_append, Tree.len_insert, ih, get_buildTree]
    by_cases hp : p.1 ∈ ps.map Prod.fst
    · have hs : (lastVal ps p.1).isSome := (lastVal_isSome ps p.1).2 hp
      have hf : p.1 ∈ (ps.map Prod.fst).toFinset := List.mem_toFinset.2 hp
      simp [hs, List.toFinset_append, Finset.insert_eq,
        Finset.union_comm, hf]
      rw [← Finset.insert_eq, Finset.card_insert_of_mem hf]
    · have hs : ¬ (lastVal ps p.1).isSome := fun hc =>
        hp ((lastVal_isSome ps p.1).1 hc)
      have hf : p.1 ∉ (ps.map Prod.fst).toFinset := fun hc =>
        hp (List.mem_toFinset.1 hc)
      simp [hs, List.toFinset_append, Finset.insert_eq, Finset.union_comm]
      rw [← Finset.insert_eq, Finset.card_insert_of_not_mem hf]

theorem bst_buildTree [LinearOrder K] (ps : List (K × V)) :
    (buildTree ps).BST := by
  induction ps using List.reverseRecOn with
  | nil => exact .nil
  | append_singleton ps p ih =>
    rw [buildTree_append]
    exact Tree.bst_insert ih p.1 p.2

theorem Tree.structEq_iff [DecidableEq K] [DecidableEq V]
    (t1 t2 : Tree K V) : t1.structEq t2 = true ↔ t1 = t2 := by
  induction t1 generalizing t2 with
  | nil => cases t2 <;> simp [Tree.structEq]
  | node k v l r ihl ihr =>
    cases t2 with
    | nil => simp [Tree.structEq]
    | node k2 v2 l2 r2 =>
      simp only [Tree.structEq, Bool.and_eq_true, decide_eq_true_eq,
        ihl, ihr, Tree.node.injEq]
      tauto

/-- C1: the claim states that `rotate_r`/`rotate_l` leave the in-order key
sequence of any non-empty subtree unchanged.  The code violates it: when the
promoted left child itself has a right subtree, `rotate_r` overwrites the
promoted child's right slot with the old root, dropping that subtree.  On the
tree with root 2, left child 0 and left-right grandchild 1, the in-order
sequence before is `[0, 1, 2]`, but after `rotate_r` the entry with key 1 is
gone and the sequence is `[0, 2]` (the node count drops from 3 to 2). -/
theorem C1_rotate_r_drops_keys :
    (Tree.node 2 20 (Tree.node 0 0 .nil (Tree.node 1 10 .nil .nil)) .nil
        : Tree Nat Nat).inorder = [(0, 0), (1, 10), (2, 20)]
    ∧ (rotate_r (Tree.node 2 20
          (Tree.node 0 0 .nil (Tree.node 1 10 .nil .nil)) .nil
        : Tree Nat Nat)).inorder = [(0, 0), (2, 20)]
    ∧ (Tree.node 2 20 (Tree.node 0 0 .nil (Tree.node 1 10 .nil .nil)) .nil
        : Tree Nat Nat).len = 3
    ∧ (rotate_r (Tree.node 2 20
          (Tree.node 0 0 .nil (Tree.node 1 10 .nil .nil)) .nil
        : Tree Nat Nat)).len = 2 :=
  ⟨rfl, rfl, rfl, rfl⟩

/-- C2: on an absent key, `insert` returns `none` and `len` grows by exactly
one; on a present key it returns the previously stored value, the stored
value becomes the new one, and `len` is unchanged. -/
theorem C2_insert_spec [LinearOrder K] (t : Tree K V) (k : K) (v : V) :
    (t.get k = none →
      (t.insert k v).1 = none ∧ (t.insert k v).2.len = t.len + 1)
    ∧ ∀ w, t.get k = some w →
      (t.insert k v).1 = some w ∧ (t.insert k v).2.len = t.len
        ∧ (t.insert k v).2.get k = some v := by
  constructor
  · intro h
    refine ⟨by rw [Tree.insert_fst, h], ?_⟩
    rw [Tree.len_insert, h]
    simp
  · intro w h
    refine ⟨by rw [Tree.insert_fst, h], ?_, Tree.get_insert_self t k v⟩
    rw [Tree.len_insert, h]
    simp

/-- Witness for C2: both branches exercised on concrete trees — inserting
key 5 into the empty tree (absent), then inserting key 5 again into the
resulting singleton (present). -/
theorem C2_insert_spec_witness :
    (((Tree.nil : Tree Nat Nat).insert 5 7).1 = none
      ∧ ((Tree.nil : Tree Nat Nat).insert 5 7).2.len
          = (Tree.nil : Tree Nat Nat).len + 1)
    ∧ (((Tree.withKV 5 7 : Tree Nat Nat).insert 5 9).1 = some 7
      ∧ ((Tree.withKV 5 7 : Tree Nat Nat).insert 5 9).2.len
          = (Tree.withKV 5 7 : Tree Nat Nat).len
      ∧ ((Tree.withKV 5 7 : Tree Nat Nat).insert 5 9).2.get 5 = some 9) :=
  ⟨(C2_insert_spec (Tree.nil : Tree Nat Nat) 5 7).1 (by decide),
   (C2_insert_spec (Tree.withKV 5 7 : Tree Nat Nat) 5 9).2 7 (by decide)⟩

/-- C3: after any sequence of inserts, `get k` returns the value of the most
recent insert with key `k` (`lastVal`), and `none` if no insert ever used
key `k`. -/
theorem C3_get_most_recent [LinearOrder K] (ps : List (K × V)) (k : K) :
    (buildTree ps).get k = lastVal ps k
    ∧ (k ∉ ps.map Prod.fst → (buildTree ps).get k = none) := by
  refine ⟨get_buildTree ps k, fun h => ?_⟩
  rw [get_buildTree]
  rcases hv : lastVal ps k with _ | w
  · rfl
  · exact absurd ((lastVal_isSome ps k).1 (by rw [hv]; rfl)) h

/-- Witness for C3: the tree built from `[(1, 10), (2, 20)]`, queried at the
never-inserted key 3. -/
theorem C3_get_most_recent_witness :
    (buildTree [(1, 10), (2, 20)]).get 3 = lastVal [(1, 10), (2, 20)] 3
    ∧ (buildTree [(1, 10), (2, 20)] : Tree Nat Nat).get 3 = none :=
  ⟨(C3_get_most_recent [(1, 10), (2, 20)] 3).1,
   (C3_get_most_recent [(1, 10), (2, 20)] 3).2 (by decide)⟩

/-- C4: for every insertion sequence, iterating the resulting tree yields
keys in strictly increasing order: each yielded key is strictly greater than
the previous one. -/
theorem C4_iter_sorted [LinearOrder K] (ps : List (K × V)) :
    List.Chain' (· < ·) ((iterTree (buildTree ps)).map Prod.fst) := by
  rw [iterTree_eq_inorder]
  have hs := Tree.bst_sorted (buildTree ps) (bst_buildTree ps)
  rw [Tree.keys] at hs
  exact hs.chain'

/-- C5: after any insertion sequence, `len` equals the number of distinct
keys inserted so far, and at every node it is the sum of the left-subtree
count, 1 and the right-subtree count. -/
theorem C5_len_distinct [LinearOrder K] (ps : List (K × V)) :
    (buildTree ps).len = (ps.map Prod.fst).toFinset.card
    ∧ ∀ (k : K) (v : V) (l r : Tree K V),
        (Tree.node k v l r).len = l.len + 1 + r.len :=
  ⟨len_buildTree ps, fun _ _ _ _ => rfl⟩

/-- C6: every modifying operation — `insert`, `with`, and the rotation
primitives — preserves the BST ordering invariant, and the keys of each
result are pairwise distinct (no duplicate key coexists). -/
theorem C6_invariant_preserved [LinearOrder K] (t : Tree K V) (h : t.BST)
    (k : K) (v : V) :
    ((t.insert k v).2).BST ∧ (rotate_r t).BST ∧ (rotate_l t).BST
    ∧ (Tree.withKV k v : Tree K V).BST
    ∧ ((t.insert k v).2).keys.Nodup ∧ (rotate_r t).keys.Nodup
    ∧ (rotate_l t).keys.Nodup ∧ (Tree.withKV k v : Tree K V).keys.Nodup := by
  have h1 := Tree.bst_insert h k v
  have h2 := Tree.bst_rotate_r h
  have h3 := Tree.bst_rotate_l h
  have h4 : (Tree.withKV k v : Tree K V).BST := Tree.bst_insert .nil k v
  exact ⟨h1, h2, h3, h4, Tree.bst_nodup _ h1, Tree.bst_nodup _ h2,
    Tree.bst_nodup _ h3, Tree.bst_nodup _ h4⟩

/-- Witness for C6: the three-node BST with root 1 and children 0 and 2,
inserting key 3. -/
theorem C6_invariant_preserved_witness :
    (((Tree.node 1 10 (Tree.node 0 0 .nil .nil) (Tree.node 2 20 .nil .nil)
        : Tree Nat Nat).insert 3 30).2).BST
    ∧ (rotate_r (Tree.node 1 10 (Tree.node 0 0 .nil .nil)
        (Tree.node 2 20 .nil .nil) : Tree Nat Nat)).BST
    ∧ (rotate_l (Tree.node 1 10 (Tree.node 0 0 .nil .nil)
        (Tree.node 2 20 .nil .nil) : Tree Nat Nat)).BST
    ∧ (Tree.withKV 3 30 : Tree Nat Nat).BST
    ∧ (((Tree.node 1 10 (Tree.node 0 0 .nil .nil) (Tree.node 2 20 .nil .nil)
        : Tree Nat Nat).insert 3 30).2).keys.Nodup
    ∧ (rotate_r (Tree.node 1 10 (Tree.node 0 0 .nil .nil)
        (Tree.node 2 20 .nil .nil) : Tree Nat Nat)).keys.Nodup
    ∧ (rotate_l (Tree.node 1 10 (Tree.node 0 0 .nil .nil)
        (Tree.node 2 20 .nil .nil) : Tree Nat Nat)).keys.Nodup
    ∧ (Tree.withKV 3 30 : Tree Nat Nat).keys.Nodup :=
  C6_invariant_preserved _
    (.node (by simp [Tree.all]) (by simp [Tree.all])
      (.node (by simp [Tree.all]) (by simp [Tree.all]) .nil .nil)
      (.node (by simp [Tree.all]) (by simp [Tree.all]) .nil .nil))
    3 30

/-- C7: rotating right the subtree with root key 1, left child key 0 and
right child key 2 yields the former left child (key 0) as root, with no left
child and a right subtree of size 2 holding exactly keys 1 and 2; the
in-order key sequence is `[0, 1, 2]` before and after. -/
theorem C7_rotate_r_scenario :
    rotate_r (Tree.node 1 'b' (Tree.node 0 'a' .nil .nil)
        (Tree.node 2 'c' .nil .nil) : Tree Nat Char)
      = Tree.node 0 'a' .nil
          (Tree.node 1 'b' .nil (Tree.node 2 'c' .nil .nil))
    ∧ (Tree.node 1 'b' .nil (Tree.node 2 'c' .nil .nil)
        : Tree Nat Char).len = 2
    ∧ (rotate_r (Tree.node 1 'b' (Tree.node 0 'a' .nil .nil)
        (Tree.node 2 'c' .nil .nil) : Tree Nat Char)).keys = [0, 1, 2]
    ∧ (Tree.node 1 'b' (Tree.node 0 'a' .nil .nil)
        (Tree.node 2 'c' .nil .nil) : Tree Nat Char).keys = [0, 1, 2] :=
  ⟨rfl, rfl, rfl, rfl⟩

/-- C8: `rotate_r` returns a subtree whose root has no left child completely
unchanged, and symmetrically `rotate_l` returns a subtree whose root has no
right child unchanged. -/
theorem C8_rotate_noop (K : Type u) (V : Type v) :
    (∀ (k : K) (v : V) (r : Tree K V),
      rotate_r (Tree.node k v .nil r) = Tree.node k v .nil r)
    ∧ ∀ (k : K) (v : V) (l : Tree K V),
      rotate_l (Tree.node k v l .nil) = Tree.node k v l .nil :=
  ⟨fun _ _ _ => rfl, fun _ _ _ => rfl⟩

/-- C9: structural equality holds iff shapes and key/value pairs match
node-for-node, and it is insertion-order-sensitive: inserting the same
entries in orders `[1, 0, 2]` and `[0, 1, 2]` yields trees that compare
unequal even though their in-order contents coincide. -/
theorem C9_structural_eq :
    (∀ (t1 t2 : Tree Nat Nat), t1.structEq t2 = true ↔ t1 = t2)
    ∧ (buildTree [(1, 10), (0, 0), (2, 20)]).structEq
        (buildTree [(0, 0), (1, 10), (2, 20)] : Tree Nat Nat) = false
    ∧ (buildTree [(1, 10), (0, 0), (2, 20)] : Tree Nat Nat).inorder
        = (buildTree [(0, 0), (1, 10), (2, 20)] : Tree Nat Nat).inorder :=
  ⟨fun t1 t2 => Tree.structEq_iff t1 t2, by decide, by decide⟩

/-- C10: a fresh iterator yields exactly `len` items before finishing, and
every key stored in the tree is yielded exactly once — no key is skipped or
repeated. -/
theorem C10_iter_complete [LinearOrder K] (t : Tree K V) (h : t.BST) :
    (iterTree t).length = t.len
    ∧ ∀ k : K, ((iterTree t).map Prod.fst).count k
        = if (t.get k).isSome then 1 else 0 := by
  constructor
  · rw [iterTree_eq_inorder, Tree.inorder_length]
  · intro k
    rw [iterTree_eq_inorder, ← Tree.keys]
    by_cases hk : k ∈ t.keys
    · rw [if_pos ((Tree.get_isSome_iff t h k).2 hk)]
      exact List.count_eq_one_of_mem (Tree.bst_nodup t h) hk
    · rw [if_neg (fun hc => hk ((Tree.get_isSome_iff t h k).1 hc))]
      exact List.count_eq_zero.2 hk

/-- Witness for C10: the three-node BST with root 1 and children 0 and 2,
counting the yields of key 1. -/
theorem C10_iter_complete_witness :
    (iterTree (Tree.node 1 10 (Tree.node 0 0 .nil .nil)
        (Tree.node 2 20 .nil .nil) : Tree Nat Nat)).length
      = (Tree.node 1 10 (Tree.node 0 0 .nil .nil)
        (Tree.node 2 20 .nil .nil) : Tree Nat Nat).len
    ∧ ((iterTree (Tree.node 1 10 (Tree.node 0 0 .nil .nil)
        (Tree.node 2 20 .nil .nil) : Tree Nat Nat)).map Prod.fst).count 1
      = if ((Tree.node 1 10 (Tree.node 0 0 .nil .nil)
        (Tree.node 2 20 .nil .nil) : Tree Nat Nat).get 1).isSome
        then 1 else 0 :=
  ⟨(C10_iter_complete _
      (.node (by simp [Tree.all]) (by simp [Tree.all])
        (.node (by simp [Tree.all]) (by simp [Tree.all]) .nil .nil)
        (.node (by simp [Tree.all]) (by simp [Tree.all]) .nil .nil))).1,
   (C10_iter_complete _
      (.node (by simp [Tree.all]) (by simp [Tree.all])
        (.node (by simp [Tree.all]) (by simp [Tree.all]) .nil .nil)
        (.node (by simp [Tree.all]) (by simp [Tree.all]) .nil .nil))).2 1⟩

end Bst
